import Mathlib

set_option autoImplicit false

/-!
Shallow embedding of the staking/validator state machine of
`chain-core/src/state/validator_spec.rs` and of the versioned Merkle
storage glue of `chain-storage/src/jellyfish.rs`, together with proofs
about them.

Rust `HashMap`s are modelled as association lists with unique keys,
`slab::Slab` as an association list from object ids to rows, and
`BTreeMap` as an association list kept sorted in ascending key order.
-/

namespace ChainSpec

/-! ## Association-list primitives (models of HashMap / Slab storage) -/

/-- Lookup by key in an association list (model of `HashMap::get`). -/
def getA {κ β : Type} [DecidableEq κ] (a : κ) : List (κ × β) → Option β
  | [] => none
  | (k, v) :: rest => if k = a then some v else getA a rest

/-- Insert or replace by key (model of `HashMap::insert`). -/
def setA {κ β : Type} [DecidableEq κ] (a : κ) (b : β) : List (κ × β) → List (κ × β)
  | [] => [(a, b)]
  | (k, v) :: rest => if k = a then (a, b) :: rest else (k, v) :: setA a b rest

/-- Remove by key (model of `HashMap::remove`). -/
def eraseA {κ β : Type} [DecidableEq κ] (a : κ) : List (κ × β) → List (κ × β)
  | [] => []
  | (k, v) :: rest => if k = a then eraseA a rest else (k, v) :: eraseA a rest

/-- Model of the external `slab` crate allocator: an object id not in use. -/
def slabFresh (ks : List Nat) : Nat :=
  (ks.foldl max 0) + 1

/-! ## Configuration constants (`#configs`) -/

def MINIMAL_REQUIRED_STAKING : Nat := 100000000
def MAX_VALIDATORS : Nat := 10
def MAX_EVIDENCE_AGE : Nat := 10
def SLASH_WAIT_PERIOD : Nat := 15
def JAIL_DURATION : Nat := 18
def REWARD_PERIOD : Nat := 10

/-! ## Validator table (`#table-schema`) -/

structure Validator where
  staking_address : String
  bonded_coins : Nat
  validator_address : String
  council_node_info : String
  inactive_time : Option Nat
deriving DecidableEq, Repr

inductive ValidatorUniqueViolation where
  | StakingAddress
  | ValidatorAddress
deriving DecidableEq, Repr

def Validator.voting_power (v : Validator) : Nat :=
  v.bonded_coins / 100000000

def Validator.is_active (v : Validator) : Bool :=
  v.inactive_time.isNone

/-- Comparison of `ValidatorSortKey(Coin, StakingAddress)` as implemented by
its `Ord` instance: by coin amount, ties broken by staking address. -/
def sortKeyLt (a b : Nat × String) : Bool :=
  a.1 < b.1 || (a.1 == b.1 && a.2 < b.2)

/-- Ascending-order insertion into the `BTreeMap<ValidatorSortKey, usize>`. -/
def btreeInsert (k : Nat × String) (v : Nat) : List ((Nat × String) × Nat) → List ((Nat × String) × Nat)
  | [] => [(k, v)]
  | (k', v') :: rest =>
    if sortKeyLt k k' then (k, v) :: (k', v') :: rest
    else if k = k' then (k, v) :: rest
    else (k', v') :: btreeInsert k v rest

structure ValidatorSet where
  heap : List (Nat × Validator)
  idx_staking_address : List (String × Nat)
  idx_sort_key : List ((Nat × String) × Nat)
  idx_validator_address : List (String × Nat)
deriving DecidableEq, Repr

namespace ValidatorSet

def new : ValidatorSet :=
  ⟨[], [], [], []⟩

/-- `select * from validator order by bonded_coins desc, staking_address`:
walks `idx_sort_key` in `BTreeMap` iteration order and resolves each object
id in the heap (`get_unchecked`; ids of a consistent set always resolve). -/
def iter_sorted (s : ValidatorSet) : List Validator :=
  s.idx_sort_key.filterMap (fun e => getA e.2 s.heap)

def remove (s : ValidatorSet) (oid : Nat) : ValidatorSet :=
  match getA oid s.heap with
  | none => s
  | some v =>
    { heap := eraseA oid s.heap
      idx_staking_address := eraseA v.staking_address s.idx_staking_address
      idx_validator_address := eraseA v.validator_address s.idx_validator_address
      idx_sort_key := eraseA (v.bonded_coins, v.staking_address) s.idx_sort_key }

/-- `select * from validator where staking_address=:staking_address`. -/
def get (s : ValidatorSet) (addr : String) : Option Validator :=
  (getA addr s.idx_staking_address).bind (fun oid => getA oid s.heap)

/-- The `get_mut` variant also exposing the object id. -/
def getEntry (s : ValidatorSet) (addr : String) : Option (Nat × Validator) :=
  (getA addr s.idx_staking_address).bind
    (fun oid => (getA oid s.heap).map (fun v => (oid, v)))

/-- `select * from validator where validator_address=:validator_address`. -/
def get_by_validator_address (s : ValidatorSet) (validator_address : String) : Option Validator :=
  (getA validator_address s.idx_validator_address).bind (fun oid => getA oid s.heap)

/-- `update validator set bonded_coins=:value where staking_address=:staking_address`.
The source mutates the heap row in place; none of the indexes is touched. -/
def set_bonded_coin (s : ValidatorSet) (staking_address : String) (value : Nat) : ValidatorSet :=
  match getA staking_address s.idx_staking_address with
  | none => s
  | some oid =>
    { s with heap :=
        s.heap.map (fun p =>
          if p.1 = oid then (p.1, { p.2 with bonded_coins := value }) else p) }

/-- `insert into validator values (...) returning *`. -/
def insert (s : ValidatorSet) (staking_address : String) (bonded_coins : Nat)
    (validator_address : String) (council_node_info : String) :
    Except ValidatorUniqueViolation ValidatorSet :=
  if (getA staking_address s.idx_staking_address).isSome then
    .error .StakingAddress
  else if (getA validator_address s.idx_validator_address).isSome then
    .error .ValidatorAddress
  else
    let oid := slabFresh (s.heap.map Prod.fst)
    .ok { heap := s.heap ++ [(oid,
            ⟨staking_address, bonded_coins, validator_address, council_node_info, none⟩)]
          idx_staking_address := setA staking_address oid s.idx_staking_address
          idx_sort_key := btreeInsert (bonded_coins, staking_address) oid s.idx_sort_key
          idx_validator_address := setA validator_address oid s.idx_validator_address }

end ValidatorSet

/-! ## Punishment table (`#table-schema`) -/

structure Punishment where
  staking_address : String
  slash_rate : Nat
  jail_time : Nat
  slash_reason : String
  slash_amount : Option Nat
deriving DecidableEq, Repr

inductive PunishmentUniqueViolation where
  | StakingAddress
deriving DecidableEq, Repr

structure PunishmentSet where
  heap : List (Nat × Punishment)
  idx_staking_address : List (String × Nat)
deriving DecidableEq, Repr

namespace PunishmentSet

def new : PunishmentSet :=
  ⟨[], []⟩

/-- `exists (select 1 from punishment where staking_address=:staking_address)`. -/
def contains (s : PunishmentSet) (staking_address : String) : Bool :=
  (getA staking_address s.idx_staking_address).isSome

/-- `select * from punishment where staking_address=:staking_address`. -/
def get (s : PunishmentSet) (staking_address : String) : Option (Nat × Punishment) :=
  (getA staking_address s.idx_staking_address).bind
    (fun oid => (getA oid s.heap).map (fun p => (oid, p)))

def remove (s : PunishmentSet) (oid : Nat) : PunishmentSet :=
  match getA oid s.heap with
  | none => s
  | some p =>
    { heap := eraseA oid s.heap
      idx_staking_address := eraseA p.staking_address s.idx_staking_address }

/-- `insert into punishment values (...) returning *`; a fresh row starts with
`jail_time = block_time` and no slash amount. -/
def insert (s : PunishmentSet) (staking_address : String) (slash_rate : Nat)
    (block_time : Nat) (slash_reason : String) :
    Except PunishmentUniqueViolation PunishmentSet :=
  match getA staking_address s.idx_staking_address with
  | some _ => .error .StakingAddress
  | none =>
    let oid := slabFresh (s.heap.map Prod.fst)
    .ok { heap := s.heap ++ [(oid, ⟨staking_address, slash_rate, block_time, slash_reason, none⟩)]
          idx_staking_address := setA staking_address oid s.idx_staking_address }

/-- Well-formedness of the mock table: every index entry resolves to a heap
row carrying that staking address (the source's `unwrap`s rely on this). -/
def wfB (s : PunishmentSet) : Bool :=
  s.idx_staking_address.all
    (fun e => ((getA e.2 s.heap).map (fun p => p.staking_address)) == some e.1)

end PunishmentSet

/-! ## Validator state machine -/

structure ValidatorState where
  validator : ValidatorSet
  validator_snapshot : List (String × Nat)
  reward_stat : List (String × Nat)
  punishment : PunishmentSet
  last_reward_distributio_time : Nat
deriving DecidableEq, Repr

/-- Per-version snapshot map built by `collect::<HashMap<_, _>>()`: a later
pair with the same key replaces the earlier one. -/
def collectMap (l : List (String × Nat)) : List (String × Nat) :=
  l.foldl (fun m p => setA p.1 p.2 m) []

/-- Validator-update diff (`#generate-validator-updates`): changed or added
entries of `new`, then entries of `old` missing from `new` with power 0. -/
def diff_validators (old new : List (String × Nat)) : List (String × Nat) :=
  new.filter (fun p => decide (getA p.1 old ≠ some p.2)) ++
    (old.filter (fun p => decide (getA p.1 new = none))).map (fun p => (p.1, 0))

namespace ValidatorState

def new : ValidatorState :=
  ⟨ValidatorSet.new, [], [], PunishmentSet.new, 0⟩

/-- `#set-inactive_time-for-newly-inactive-validators`. -/
def set_inactive_time (st : ValidatorState) (block_time : Nat) : ValidatorState :=
  { st with validator :=
      { st.validator with heap :=
          st.validator.heap.map (fun q =>
            if q.2.inactive_time = none ∧
                (q.2.bonded_coins < MINIMAL_REQUIRED_STAKING ∨
                  st.punishment.contains q.2.staking_address) then
              (q.1, { q.2 with inactive_time := some block_time })
            else q) } }

/-- `#generate-validator-updates`: the new snapshot is the first
`MAX_VALIDATORS` active validators in `iter_sorted` order; the diff against
the previous snapshot is returned and the snapshot replaced. -/
def gen_validator_update (st : ValidatorState) : List (String × Nat) × ValidatorState :=
  let new := collectMap
    (((st.validator.iter_sorted.filter (fun v => v.is_active)).map
        (fun v => (v.validator_address, v.voting_power))).take MAX_VALIDATORS)
  (diff_validators st.validator_snapshot new, { st with validator_snapshot := new })

/-- `#join-node`. `none` models the `assert_eq!` / `unwrap` panics. -/
def join_node (st : ValidatorState) (staking_address : String) (bonded_coins : Nat)
    (validator_address : String) (council_node_info : String) :
    Option (Bool × ValidatorState) :=
  match st.validator.insert staking_address bonded_coins validator_address council_node_info with
  | .ok vs => some (true, { st with validator := vs })
  | .error .StakingAddress =>
    match st.validator.getEntry staking_address with
    | none => none
    | some (oid, v) =>
      if MINIMAL_REQUIRED_STAKING ≤ v.bonded_coins ∧ ¬ st.punishment.contains staking_address then
        if v.bonded_coins = bonded_coins then
          some (true, { st with validator :=
            { st.validator with
                heap := setA oid { v with council_node_info := council_node_info,
                                          validator_address := validator_address }
                          st.validator.heap
                idx_validator_address :=
                  setA validator_address oid st.validator.idx_validator_address } })
        else none
      else some (false, st)
  | .error .ValidatorAddress => some (false, st)

/-- `#unjail`. -/
def unjail (st : ValidatorState) (staking_address : String) (block_time : Nat) :
    Bool × ValidatorState :=
  match st.punishment.get staking_address with
  | some (oid, p) =>
    if p.jail_time + JAIL_DURATION ≤ block_time then
      (true, { st with punishment := st.punishment.remove oid })
    else (false, st)
  | none => (false, st)

/-- One step of `#jail-byzantine-or-non-liveness` for a single
`(staking_address, slash_rate, slash_reason)` tuple. -/
def jailOne (st : ValidatorState) (block_time : Nat) (pu : String × Nat × String) :
    ValidatorState :=
  match st.punishment.insert pu.1 pu.2.1 block_time pu.2.2 with
  | .ok ps => { st with punishment := ps }
  | .error .StakingAddress =>
    match st.punishment.get pu.1 with
    | none => st
    | some (oid, p) =>
      if p.slash_amount = none ∧ p.slash_rate < pu.2.1 then
        let p' : Punishment := { p with slash_rate := pu.2.1, slash_reason := pu.2.2 }
        { st with punishment :=
            { st.punishment with heap := setA oid p' st.punishment.heap } }
      else st

/-- `#jail-byzantine-or-non-liveness`. -/
def jail (st : ValidatorState) (block_time : Nat)
    (punishments : List (String × Nat × String)) : ValidatorState :=
  punishments.foldl (fun s pu => s.jailOne block_time pu) st

/-- `#slash`: the slash execution itself is a `TODO` in the source; the row
merely gets `slash_amount = Some(1)` recorded. -/
def slash (st : ValidatorState) (block_time : Nat) : ValidatorState :=
  { st with punishment :=
      { st.punishment with heap :=
          st.punishment.heap.map (fun q =>
            if q.2.slash_amount = none ∧ q.2.jail_time + SLASH_WAIT_PERIOD ≤ block_time then
              (q.1, { q.2 with slash_amount := some 1 })
            else q) } }

/-- Increment of the proposer's entry in `reward_stat`
(`entry().and_modify(|c| *c += 1).or_insert(1)`). -/
def bumpA (a : String) : List (String × Nat) → List (String × Nat)
  | [] => [(a, 1)]
  | (k, c) :: rest => if k = a then (k, c + 1) :: rest else (k, c) :: bumpA a rest

/-- The divisor of the reward share: total of the recorded block counts. -/
def sumCounts (m : List (String × Nat)) : Nat :=
  (m.map Prod.snd).sum

/-- First half of `#reward-distribution`: record one block for the proposer
when it is a known validator. -/
def recordProposer (st : ValidatorState) (block_proposer : String) : ValidatorState :=
  match st.validator.get_by_validator_address block_proposer with
  | some v => { st with reward_stat := bumpA v.staking_address st.reward_stat }
  | none => st

/-- `#reward-distribution`: on a reward-period boundary the share
`total_reward / sumCounts reward_stat` is paid out and the accrual map is
cleared. -/
def distribute_reward (st : ValidatorState) (block_time : Nat) (block_proposer : String) :
    ValidatorState :=
  let st1 := st.recordProposer block_proposer
  if REWARD_PERIOD ≤ block_time - st1.last_reward_distributio_time then
    { st1 with last_reward_distributio_time := block_time, reward_stat := [] }
  else st1

end ValidatorState

/-! ## Byte-level helpers for `chain-storage/src/jellyfish.rs` -/

/-- Big-endian byte list of a number, with a fixed digit count
(model of `u64::to_be_bytes` when the count is 8). -/
def toBE : Nat → Nat → List Nat
  | 0, _ => []
  | n + 1, v => toBE n (v / 256) ++ [v % 256]

/-- Reassemble a big-endian byte list (model of `u64::from_be_bytes`). -/
def fromBE (l : List Nat) : Nat :=
  l.foldl (fun acc b => acc * 256 + b) 0

/-- Lexicographic strict order on byte strings: the order in which an ordered
key-value column (RocksDB-style) stores its keys. -/
def lexLtB : List Nat → List Nat → Bool
  | _, [] => false
  | [], _ :: _ => true
  | a :: as, b :: bs => a < b || (a == b && lexLtB as bs)

/-- Pack a nibble path two nibbles per byte, high nibble first. -/
def packNibbles : List Nat → List Nat
  | [] => []
  | [a] => [a * 16]
  | a :: b :: rest => (a * 16 + b) :: packNibbles rest

/-- Unpack `n` nibbles from packed bytes. -/
def unpackNibbles : Nat → List Nat → List Nat
  | 0, _ => []
  | _ + 1, [] => []
  | 1, b :: _ => [b / 16]
  | n + 2, b :: rest => b / 16 :: b % 16 :: unpackNibbles n rest

/-- Modelled from the spec: the node key of the external `jellyfish_merkle`
crate (absent from `src/`) is a tree position, a `(version, nibble path)`
pair. -/
structure NodeKeyM where
  version : Nat
  nibbles : List Nat
deriving DecidableEq, Repr

/-- Modelled from the spec: `NodeKey::encode` of the external
`jellyfish_merkle` crate — the big-endian version, the nibble count, then
the packed nibble path (the repository's `check_nodes` test pins the
version-0 root key to nine zero bytes). -/
def NodeKeyM.encode (nk : NodeKeyM) : List Nat :=
  toBE 8 nk.version ++ nk.nibbles.length :: packNibbles nk.nibbles

/-- Modelled from the spec: `NodeKey::decode` of the external
`jellyfish_merkle` crate, inverse of `NodeKeyM.encode` — the first eight
bytes are the big-endian version, the ninth the nibble count, the remainder
the packed nibble path. -/
def NodeKeyM.decode (data : List Nat) : Option NodeKeyM :=
  match data.drop 8 with
  | [] => none
  | n :: rest =>
    if rest.length = (n + 1) / 2 then
      some ⟨fromBE (data.take 8), unpackNibbles n rest⟩
    else none

/-- Well-formedness of a node key as produced by a 256-bit sparse Merkle
tree: each nibble is a nibble, the path fits in the count byte, and the
version is a `u64`. -/
def NodeKeyM.wf (nk : NodeKeyM) : Prop :=
  (∀ a ∈ nk.nibbles, a < 16) ∧ nk.nibbles.length ≤ 255 ∧ nk.version < 2 ^ 64

instance (nk : NodeKeyM) : Decidable nk.wf := by
  unfold NodeKeyM.wf; infer_instance

structure StaleNodeIndex where
  stale_since_version : Nat
  node_key : NodeKeyM
deriving DecidableEq, Repr

def StaleNodeIndex.wf (x : StaleNodeIndex) : Prop :=
  x.node_key.wf ∧ x.stale_since_version < 2 ^ 64

instance (x : StaleNodeIndex) : Decidable x.wf := by
  unfold StaleNodeIndex.wf; infer_instance

/-- Key of a stale-index entry: `stale_since_version` big endian, then the
node-key encoding. -/
def encode_stale_node_index (index : StaleNodeIndex) : List Nat :=
  toBE 8 index.stale_since_version ++ index.node_key.encode

def decode_stale_node_index (data : List Nat) : Option StaleNodeIndex :=
  match NodeKeyM.decode (data.drop 8) with
  | some nk => some ⟨fromBE (data.take 8), nk⟩
  | none => none

/-- Modelled from the spec: `iter_from_prefix` of the external `kvdb` crate
iterates the ordered column starting at the first key at or after the given
prefix; the column itself is modelled as its ascending list of keys. -/
def iterFromStart (keys : List (List Nat)) (start : List Nat) : List (List Nat) :=
  keys.dropWhile (fun k => lexLtB k start)

/-- `collect_stale_node_indices`: decode every key the iterator yields. -/
def collect_stale_node_indices (storage : List (List Nat)) (stale_since : Nat) :
    List StaleNodeIndex :=
  (iterFromStart storage (toBE 8 stale_since)).filterMap decode_stale_node_index

/-! ## Versioned staking store (`StakingGetter::get` / `flush_stakings`)

Modelled from the spec: the `JellyfishMerkleTree` that backs both functions
is an external crate (absent from `src/`). A tree holding every committed
write is modelled as the list of `(version, key, value)` triples it stores;
reading key `k` at version `v` returns the value recorded for `k` at the
greatest version at most `v`, exactly the tree's versioned-read contract. -/

/-- One committed write of the modelled tree. -/
structure TreeEntry where
  version : Nat
  key : String
  value : Nat
deriving DecidableEq, Repr

/-- Modelled from the spec: `flush_stakings` hands every buffer entry to
`put_blob_sets` at the given version and commits the node batch. -/
def dbFlush (db : List TreeEntry) (version : Nat) (buffer : List (String × Nat)) :
    List TreeEntry :=
  db ++ buffer.map (fun kv => ⟨version, kv.1, kv.2⟩)

/-- One fold step of the versioned read: keep the visible entry for the key
with the greatest version. -/
def dbGetStep (k : String) (v : Nat) (acc : Option (Nat × Nat)) (e : TreeEntry) :
    Option (Nat × Nat) :=
  if e.key = k ∧ e.version ≤ v then
    match acc with
    | none => some (e.version, e.value)
    | some b => if b.1 ≤ e.version then some (e.version, e.value) else some b
  else acc

/-- Modelled from the spec: `StakingGetter::get` reads through
`get_with_proof` at the getter's version — the entry for the key with the
greatest version at most `v` wins. -/
def dbGet (db : List TreeEntry) (k : String) (v : Nat) : Option (Nat × Nat) :=
  db.foldl (dbGetStep k v) none

/-- Value-level read of the modelled store. -/
def dbGetValue (db : List TreeEntry) (k : String) (v : Nat) : Option Nat :=
  (dbGet db k v).map Prod.snd

/-- Replay a sequence of flushes, oldest first, against an empty store. -/
def dbOfFlushes (fs : List (Nat × List (String × Nat))) : List TreeEntry :=
  fs.foldl (fun db f => dbFlush db f.1 f.2) []

/-- One fold step of the history reading: a later flush that contains the
key overrides an earlier one. -/
def lastFlushedStep (k : String) (acc : Option Nat) (f : Nat × List (String × Nat)) :
    Option Nat :=
  match getA k f.2 with
  | some x => some x
  | none => acc

/-- The specification's reading of the history: the last value flushed for
`k` at a version at most `v`, if any. -/
def lastFlushed (fs : List (Nat × List (String × Nat))) (k : String) (v : Nat) :
    Option Nat :=
  (fs.filter (fun f => decide (f.1 ≤ v))).foldl (lastFlushedStep k) none

/-! ## Mutual consistency of the four `ValidatorSet` views -/

/-- Checks that every heap row is indexed exactly once under each of its
addresses and its current sort key, that every index entry points back to a
row carrying that key, and that the four views have the same cardinality. -/
def ValidatorSet.consistentB (s : ValidatorSet) : Bool :=
  s.heap.all (fun q =>
    (getA q.2.staking_address s.idx_staking_address == some q.1) &&
    (getA q.2.validator_address s.idx_validator_address == some q.1) &&
    (getA (q.2.bonded_coins, q.2.staking_address) s.idx_sort_key == some q.1)) &&
  s.idx_staking_address.all
    (fun e => ((getA e.2 s.heap).map (fun v => v.staking_address)) == some e.1) &&
  s.idx_validator_address.all
    (fun e => ((getA e.2 s.heap).map (fun v => v.validator_address)) == some e.1) &&
  s.idx_sort_key.all
    (fun e => ((getA e.2 s.heap).map (fun v => (v.bonded_coins, v.staking_address))) == some e.1) &&
  (s.heap.length == s.idx_staking_address.length) &&
  (s.heap.length == s.idx_validator_address.length) &&
  (s.heap.length == s.idx_sort_key.length)

/-! ## Applying a validator-update diff to a snapshot -/

/-- Apply one emitted `(validator_address, power)` update to a snapshot:
power 0 removes the address, any other power sets it. -/
def applyOne (acc : List (String × Nat)) (u : String × Nat) : List (String × Nat) :=
  if u.2 = 0 then eraseA u.1 acc else eraseA u.1 acc ++ [u]

/-- Apply an update list in its emitted order. -/
def applyUpdates (m us : List (String × Nat)) : List (String × Nat) :=
  us.foldl applyOne m

/-! ## Concrete states used to evaluate the code -/

/-- Insert into a `ValidatorSet`, keeping the old set on a unique violation. -/
def insertD (s : ValidatorSet) (sa : String) (cb : Nat) (va : String) : ValidatorSet :=
  ((s.insert sa cb va "i").toOption).getD s

/-- Run `join_node`, keeping the old state on a panic or rejection. -/
def joinD (st : ValidatorState) (sa : String) (cb : Nat) (va : String) : ValidatorState :=
  ((st.join_node sa cb va "i").getD (false, st)).2

/-- Two active validators, bonded 2 and 1 base units. -/
def exTwo : ValidatorSet :=
  insertD (insertD ValidatorSet.new "sa" 200000000 "va") "sb" 100000000 "vb"

/-- Eleven active validators with voting powers 1 through 11. -/
def exEleven : ValidatorSet :=
  [("s01", 1, "v01"), ("s02", 2, "v02"), ("s03", 3, "v03"), ("s04", 4, "v04"),
   ("s05", 5, "v05"), ("s06", 6, "v06"), ("s07", 7, "v07"), ("s08", 8, "v08"),
   ("s09", 9, "v09"), ("s10", 10, "v10"),
   ("s11", 11, "v11")].foldl
    (fun s p => insertD s p.1 (p.2.1 * 100000000) p.2.2) ValidatorSet.new

def exElevenSt : ValidatorState :=
  { ValidatorState.new with validator := exEleven }

/-- One validator with bonded coins below the minimal required staking. -/
def exOneVal : ValidatorSet :=
  insertD ValidatorSet.new "s" 100000000 "v"

/-- A joined validator with five base units bonded. -/
def exJoined : ValidatorState :=
  joinD ValidatorState.new "s" 500000000 "v"

/-- The same validator jailed at time 0 with slash rate 2. -/
def exJailed : ValidatorState :=
  exJoined.jail 0 [("s", 2, "byz")]

/-- The jailed validator after the slash step has recorded its amount. -/
def exSlashed : ValidatorState :=
  exJailed.slash 15

/-- An already-slashed row hit again with the higher rate 9. -/
def exRejailed : ValidatorState :=
  exSlashed.jail 20 [("s", 9, "again")]

/-- The empty node key (the version-0 root position). -/
def nkRoot : NodeKeyM :=
  ⟨0, []⟩

/-- A stale-index column holding entries staled at versions 1 and 5. -/
def exStaleStore : List (List Nat) :=
  [encode_stale_node_index ⟨1, nkRoot⟩, encode_stale_node_index ⟨5, nkRoot⟩]

/-- A stale-index entry with a three-nibble node key. -/
def exIdxA : StaleNodeIndex :=
  ⟨3, ⟨2, [1, 2, 3]⟩⟩

/-- A stale-index entry at a later version. -/
def exIdxB : StaleNodeIndex :=
  ⟨7, nkRoot⟩

/-- Three staking-buffer flushes at versions 0, 2 and 5. -/
def exFlushes : List (Nat × List (String × Nat)) :=
  [(0, [("k", 10)]), (2, [("k", 20), ("j", 5)]), (5, [("k", 30)])]

/-! ## Association-list lemmas -/

theorem getA_setA_self {κ β : Type} [DecidableEq κ] (a : κ) (b : β) (l : List (κ × β)) :
    getA a (setA a b l) = some b := by
  induction l with
  | nil => simp [setA, getA]
  | cons p rest ih =>
    by_cases h : p.1 = a
    · obtain ⟨k, v⟩ := p
      simp only at h
      simp [setA, getA, h]
    · obtain ⟨k, v⟩ := p
      simp only at h
      simp [setA, getA, h, ih]

theorem getA_setA_ne {κ β : Type} [DecidableEq κ] {a a' : κ} (b : β) (l : List (κ × β))
    (hne : a' ≠ a) : getA a (setA a' b l) = getA a l := by
  induction l with
  | nil => simp [setA, getA, hne]
  | cons p rest ih =>
    obtain ⟨k, v⟩ := p
    by_cases h : k = a'
    · simp [setA, getA, h, hne]
    · simp [setA, getA, h, ih]

theorem getA_append {κ β : Type} [DecidableEq κ] (a : κ) (l₁ l₂ : List (κ × β)) :
    getA a (l₁ ++ l₂) =
      match getA a l₁ with
      | some v => some v
      | none => getA a l₂ := by
  induction l₁ with
  | nil => simp [getA]
  | cons p rest ih =>
    obtain ⟨k, v⟩ := p
    by_cases h : k = a <;> simp [getA, h, ih]

theorem getA_eraseA_self {κ β : Type} [DecidableEq κ] (a : κ) (l : List (κ × β)) :
    getA a (eraseA a l) = none := by
  induction l with
  | nil => simp [eraseA, getA]
  | cons p rest ih =>
    obtain ⟨k, v⟩ := p
    by_cases h : k = a
    · simpa [eraseA, h] using ih
    · simp [eraseA, getA, h, ih]

theorem getA_eraseA_ne {κ β : Type} [DecidableEq κ] {a b : κ} (l : List (κ × β))
    (hne : a ≠ b) : getA a (eraseA b l) = getA a l := by
  induction l with
  | nil => simp [eraseA]
  | cons p rest ih =>
    obtain ⟨k, v⟩ := p
    by_cases h : k = b
    · subst h
      have hka : ¬ k = a := fun h' => hne h'.symm
      simp [eraseA, getA, hka, ih]
    · by_cases h' : k = a <;> simp [eraseA, getA, h, h', hne, ih]

theorem getA_some_mem {κ β : Type} [DecidableEq κ] {a : κ} {v : β} {l : List (κ × β)}
    (h : getA a l = some v) : (a, v) ∈ l := by
  induction l with
  | nil => simp [getA] at h
  | cons p rest ih =>
    obtain ⟨k, w⟩ := p
    by_cases hk : k = a
    · subst hk
      simp [getA] at h
      simp [h]
    · simp [getA, hk] at h
      simp [ih h]

theorem getA_isSome_of_mem {κ β : Type} [DecidableEq κ] {a : κ} {v : β} {l : List (κ × β)}
    (h : (a, v) ∈ l) : (getA a l).isSome := by
  induction l with
  | nil => simp at h
  | cons p rest ih =>
    obtain ⟨k, w⟩ := p
    by_cases hk : k = a
    · simp [getA, hk]
    · rcases List.mem_cons.mp h with h' | h'
      · cases h'
        simp at hk
      · simp [getA, hk, ih h']

theorem getA_eq_none_of_not_memKeys {κ β : Type} [DecidableEq κ] {a : κ} {l : List (κ × β)}
    (h : a ∉ l.map Prod.fst) : getA a l = none := by
  induction l with
  | nil => rfl
  | cons p rest ih =>
    obtain ⟨k, w⟩ := p
    simp only [List.map_cons, List.mem_cons, not_or] at h
    have hka : ¬ k = a := fun hh => h.1 hh.symm
    simp [getA, hka, ih h.2]

theorem getA_of_mem_nodup {κ β : Type} [DecidableEq κ] {a : κ} {v : β} {l : List (κ × β)}
    (hnd : (l.map Prod.fst).Nodup) (h : (a, v) ∈ l) : getA a l = some v := by
  induction l with
  | nil => simp at h
  | cons p rest ih =>
    obtain ⟨k, w⟩ := p
    rw [List.map_cons, List.nodup_cons] at hnd
    rcases List.mem_cons.mp h with h' | h'
    · cases h'
      simp [getA]
    · have hk : ¬ k = a := by
        intro hk
        subst hk
        exact hnd.1 (List.mem_map.mpr ⟨(k, v), h', rfl⟩)
      simp [getA, hk, ih hnd.2 h']

theorem le_foldl_max (ks : List Nat) : ∀ a : Nat, a ≤ ks.foldl max a := by
  induction ks with
  | nil => intro a; simp
  | cons k rest ih =>
    intro a
    calc a ≤ max a k := Nat.le_max_left a k
    _ ≤ rest.foldl max (max a k) := ih (max a k)

theorem mem_le_foldl_max {x : Nat} {ks : List Nat} (h : x ∈ ks) :
    ∀ a : Nat, x ≤ ks.foldl max a := by
  induction ks with
  | nil => simp at h
  | cons k rest ih =>
    intro a
    rcases List.mem_cons.mp h with h' | h'
    · subst h'
      calc x ≤ max a x := Nat.le_max_right a x
      _ ≤ rest.foldl max (max a x) := le_foldl_max rest (max a x)
    · exact ih h' (max a k)

theorem slabFresh_not_mem (ks : List Nat) : slabFresh ks ∉ ks := by
  intro h
  have h1 := mem_le_foldl_max h 0
  simp only [slabFresh] at h1
  omega

/-- Every index entry of a well-formed `PunishmentSet` resolves to a heap
row carrying that staking address. -/
theorem PunishmentSet.wf_resolve {s : PunishmentSet} (hwf : s.wfB = true) {b : String}
    {oid : Nat} (h : getA b s.idx_staking_address = some oid) :
    ∃ p, getA oid s.heap = some p ∧ p.staking_address = b := by
  have hm := getA_some_mem h
  have hall := List.all_eq_true.mp hwf _ hm
  cases hg : getA oid s.heap with
  | none => simp [hg] at hall
  | some p =>
    simp [hg] at hall
    exact ⟨p, rfl, hall⟩

/-! ## Claim theorems: concrete code evaluations -/

/-- C1: the claim states that `iter_sorted` yields validators with the
largest `bonded_coins` first and that the snapshot taken by
`gen_validator_update` keeps the top `MAX_VALIDATORS` active validators.
Evaluating the code refutes it: `iter_sorted` walks the `BTreeMap` in
ascending key order, so the smallest bonded validator comes first, and with
eleven validators the snapshot keeps the ten weakest, dropping the
strongest one (power 11) while keeping power 1 — contradicting the
source's own `order by bonded_coins desc` doc comments. -/
theorem C1_iter_sorted_yields_smallest_first :
    exTwo.iter_sorted.map Validator.bonded_coins = [100000000, 200000000] ∧
    getA "v11" (exElevenSt.gen_validator_update).2.validator_snapshot = none ∧
    getA "v01" (exElevenSt.gen_validator_update).2.validator_snapshot = some 1 := by
  decide

/-- C2: the claim states the four views stay mutually consistent under the
public mutations. Evaluating the code refutes it: after
`insert("s", 1 base unit)` the set is consistent, but `set_bonded_coin`
updates only the heap row and leaves the old `(bonded_coins, address)` key
in `idx_sort_key`, so consistency is broken. -/
theorem C2_set_bonded_coin_desyncs_sort_index :
    exOneVal.consistentB = true ∧
    (exOneVal.set_bonded_coin "s" 200000000).consistentB = false := by
  decide

/-- C4 counterexample: with `old = {}` and `new = {"a" ↦ 0}`,
`diff_validators` emits `("a", 0)`, which the claim's application rule
treats as a removal, so applying the diff to `old` yields the empty map
rather than `new`. -/
theorem C4_apply_diff_zero_power_fails :
    getA "a" (applyUpdates [] (diff_validators [] [("a", 0)])) = none ∧
    getA "a" [("a", (0 : Nat))] = some 0 := by
  decide

/-- C5: the claim states the slash step deducts `slash_rate × bonded` from
the account and credits the rewards pool. Evaluating the code refutes it:
the slash execution is a `TODO` stub that records `slash_amount = Some(1)`
and changes nothing else — the validator table (and hence every bonded
amount) is untouched, and no rewards pool exists in this state at all. The
due/not-due condition itself is honored: at `block_time = 14 <
jail_time + SLASH_WAIT_PERIOD` the punishment row is unchanged. -/
theorem C5_slash_is_a_stub :
    (exSlashed.punishment.get "s").map Prod.snd =
      some ⟨"s", 2, 0, "byz", some 1⟩ ∧
    exSlashed.validator = exJailed.validator ∧
    (exJailed.slash 14).punishment = exJailed.punishment := by
  decide

/-- C6 counterexample: a row whose `slash_amount` is already computed keeps
its old lower slash rate 2 even when jailed again with rate 9, because the
source updates the rate only while `slash_amount.is_none()`; the claim as
stated demands the higher rate `max 2 9 = 9` unconditionally. -/
theorem C6_higher_rate_dropped_after_slash :
    ((exRejailed.punishment.get "s").map (fun q => q.2.slash_rate)) = some 2 ∧
    (2 : Nat) ≠ max 2 9 := by
  decide

/-- C8: the claim states `collect_stale_node_indices` returns exactly the
entries with `stale_since ≤ watermark`. Evaluating the code refutes it: the
function iterates the column starting **at** the watermark's big-endian
prefix, so with entries staled at versions 1 and 5 and watermark 3 it
returns the version-5 entry and skips the version-1 entry — the opposite
of the spec's garbage-collection rule. -/
theorem C8_collect_stale_returns_at_or_after_watermark :
    collect_stale_node_indices exStaleStore 3 = [⟨5, nkRoot⟩] ∧
    (⟨1, nkRoot⟩ : StaleNodeIndex) ∉ collect_stale_node_indices exStaleStore 3 := by
  decide

/-! ## C7: unjail -/

/-- A successful row lookup decomposes into its two index steps. -/
theorem PunishmentSet.get_eq_some {s : PunishmentSet} {a : String} {oid : Nat}
    {p : Punishment} (h : s.get a = some (oid, p)) :
    getA a s.idx_staking_address = some oid ∧ getA oid s.heap = some p := by
  unfold PunishmentSet.get at h
  cases hidx : getA a s.idx_staking_address with
  | none => rw [hidx] at h; simp at h
  | some oid' =>
    rw [hidx] at h
    simp only [Option.some_bind] at h
    cases hheap : getA oid' s.heap with
    | none => rw [hheap] at h; simp at h
    | some p' =>
      rw [hheap] at h
      simp at h
      obtain ⟨h1, h2⟩ := h
      refine ⟨?_, ?_⟩
      · rw [h1]
      · rw [← h1, hheap, h2]

/-- After a successful row lookup, removing that row makes the staking
address unresolvable (whatever address the row itself carries). -/
theorem PunishmentSet.get_remove_self {s : PunishmentSet} {a : String} {oid : Nat}
    {p : Punishment} (hidx : getA a s.idx_staking_address = some oid)
    (hheap : getA oid s.heap = some p) : (s.remove oid).get a = none := by
  unfold PunishmentSet.remove
  rw [hheap]
  unfold PunishmentSet.get
  by_cases hsa : p.staking_address = a
  · rw [← hsa, getA_eraseA_self]
    rfl
  · rw [getA_eraseA_ne _ (fun hh => hsa hh.symm), hidx]
    simp [getA_eraseA_self]

/-- C7: `unjail` succeeds exactly when a punishment row exists whose
`jail_time + JAIL_DURATION` has passed; success removes that row (so the
address no longer resolves in the `PunishmentSet`), failure leaves the
state untouched, and the validator table — in particular every
`inactive_time` — is never modified. -/
theorem C7_unjail_characterization (st : ValidatorState) (a : String) (bt : Nat) :
    ((st.unjail a bt).1 = true ↔
      ∃ oid p, st.punishment.get a = some (oid, p) ∧ p.jail_time + JAIL_DURATION ≤ bt) ∧
    (st.unjail a bt).2.validator = st.validator ∧
    ((st.unjail a bt).2.punishment =
      if (st.unjail a bt).1 then
        match st.punishment.get a with
        | some (oid, _) => st.punishment.remove oid
        | none => st.punishment
      else st.punishment) ∧
    ((st.unjail a bt).2.punishment.get a =
      if (st.unjail a bt).1 then none else st.punishment.get a) := by
  cases hget : st.punishment.get a with
  | none => simp [ValidatorState.unjail, hget]
  | some q =>
    obtain ⟨oid, p⟩ := q
    by_cases hc : p.jail_time + JAIL_DURATION ≤ bt
    · obtain ⟨hidx, hheap⟩ := PunishmentSet.get_eq_some hget
      have hrm := PunishmentSet.get_remove_self hidx hheap
      refine ⟨⟨fun _ => ⟨oid, p, rfl, hc⟩, fun _ => ?_⟩, ?_, ?_, ?_⟩ <;>
        simp [ValidatorState.unjail, hget, hc, hrm]
    · refine ⟨?_, ?_, ?_, ?_⟩ <;>
        simp [ValidatorState.unjail, hget, hc]
      omega

/-! ## C3: versioned staking reads -/

theorem dbGetStep_hit_none (k : String) (v : Nat) (e : TreeEntry)
    (hc : e.key = k ∧ e.version ≤ v) :
    dbGetStep k v none e = some (e.version, e.value) := by
  unfold dbGetStep
  rw [if_pos hc]

theorem dbGetStep_hit_some (k : String) (v : Nat) (e : TreeEntry) (b : Nat × Nat)
    (hc : e.key = k ∧ e.version ≤ v) :
    dbGetStep k v (some b) e =
      if b.1 ≤ e.version then some (e.version, e.value) else some b := by
  unfold dbGetStep
  rw [if_pos hc]

theorem dbGetStep_skip (k : String) (v : Nat) (e : TreeEntry) (acc : Option (Nat × Nat))
    (hc : ¬(e.key = k ∧ e.version ≤ v)) : dbGetStep k v acc e = acc := by
  unfold dbGetStep
  rw [if_neg hc]

theorem dbGet_version_le {k : String} {v : Nat} :
    ∀ (db : List TreeEntry) (acc : Option (Nat × Nat)) (C : Nat),
      (∀ b, acc = some b → b.1 ≤ C) → (∀ e ∈ db, e.version ≤ C) →
      ∀ b, db.foldl (dbGetStep k v) acc = some b → b.1 ≤ C := by
  intro db
  induction db with
  | nil => intro acc C hacc _ b hb; exact hacc b hb
  | cons e rest ih =>
    intro acc C hacc hall b hb
    rw [List.foldl_cons] at hb
    refine ih _ C ?_ (fun x hx => hall x (List.mem_cons_of_mem _ hx)) b hb
    intro b' hb'
    by_cases hc : e.key = k ∧ e.version ≤ v
    · cases acc with
      | none =>
        rw [dbGetStep_hit_none _ _ _ hc] at hb'
        cases hb'
        exact hall e (List.mem_cons_self _ _)
      | some b0 =>
        rw [dbGetStep_hit_some _ _ _ _ hc] at hb'
        by_cases hle : b0.1 ≤ e.version
        · rw [if_pos hle] at hb'
          cases hb'
          exact hall e (List.mem_cons_self _ _)
        · rw [if_neg hle] at hb'
          cases hb'
          exact hacc _ rfl
    · rw [dbGetStep_skip _ _ _ _ hc] at hb'
      exact hacc b' hb'

theorem dbGet_foldl_skip {k : String} {v : Nat} :
    ∀ (es : List TreeEntry) (acc : Option (Nat × Nat)),
      (∀ e ∈ es, ¬(e.key = k ∧ e.version ≤ v)) →
      es.foldl (dbGetStep k v) acc = acc := by
  intro es
  induction es with
  | nil => intro acc _; rfl
  | cons e rest ih =>
    intro acc h
    rw [List.foldl_cons, dbGetStep_skip _ _ _ _ (h e (List.mem_cons_self _ _))]
    exact ih _ (fun x hx => h x (List.mem_cons_of_mem _ hx))

theorem dbGet_foldl_buffer {k : String} {v fversion : Nat} (hfv : fversion ≤ v) :
    ∀ (buffer : List (String × Nat)) (acc : Option (Nat × Nat)),
      (buffer.map Prod.fst).Nodup →
      (∀ b, acc = some b → b.1 ≤ fversion) →
      (buffer.map (fun kv => (⟨fversion, kv.1, kv.2⟩ : TreeEntry))).foldl
          (dbGetStep k v) acc =
        match getA k buffer with
        | some x => some (fversion, x)
        | none => acc := by
  intro buffer
  induction buffer with
  | nil => intro acc _ _; rfl
  | cons p rest ih =>
    obtain ⟨k', x⟩ := p
    intro acc hnd hacc
    rw [List.map_cons, List.foldl_cons]
    rw [List.map_cons, List.nodup_cons] at hnd
    by_cases hk : k' = k
    · subst hk
      have hstep : dbGetStep k' v acc ⟨fversion, k', x⟩ = some (fversion, x) := by
        cases acc with
        | none => exact dbGetStep_hit_none k' v ⟨fversion, k', x⟩ ⟨rfl, hfv⟩
        | some b0 =>
          rw [dbGetStep_hit_some k' v ⟨fversion, k', x⟩ b0 ⟨rfl, hfv⟩]
          exact if_pos (hacc b0 rfl)
      have hskip : ∀ e ∈ rest.map (fun kv => (⟨fversion, kv.1, kv.2⟩ : TreeEntry)),
          ¬(e.key = k' ∧ e.version ≤ v) := by
        intro e he hc
        obtain ⟨q, hq, hqe⟩ := List.mem_map.mp he
        apply hnd.1
        rw [← hqe] at hc
        exact List.mem_map.mpr ⟨q, hq, hc.1⟩
      rw [hstep, dbGet_foldl_skip _ _ hskip]
      simp [getA]
    · rw [dbGetStep_skip k v ⟨fversion, k', x⟩ acc (fun hc => hk hc.1), ih acc hnd.2 hacc]
      simp [getA, hk]

theorem dbGetValue_dbFlush {k : String} {v : Nat} (db : List TreeEntry) (fversion : Nat)
    (buffer : List (String × Nat)) (hnd : (buffer.map Prod.fst).Nodup)
    (hlt : ∀ e ∈ db, e.version < fversion) :
    dbGetValue (dbFlush db fversion buffer) k v =
      if fversion ≤ v then
        match getA k buffer with
        | some x => some x
        | none => dbGetValue db k v
      else dbGetValue db k v := by
  unfold dbGetValue dbGet dbFlush
  rw [List.foldl_append]
  by_cases hfv : fversion ≤ v
  · rw [if_pos hfv]
    have hacc : ∀ b, List.foldl (dbGetStep k v) none db = some b → b.1 ≤ fversion := by
      intro b hb
      exact dbGet_version_le db none fversion (by intro b' hb'; cases hb')
        (fun e he => le_of_lt (hlt e he)) b hb
    rw [dbGet_foldl_buffer hfv buffer _ hnd hacc]
    cases hg : getA k buffer with
    | some x => rfl
    | none => rfl
  · rw [if_neg hfv]
    have hskip : ∀ e ∈ buffer.map (fun kv => (⟨fversion, kv.1, kv.2⟩ : TreeEntry)),
        ¬(e.key = k ∧ e.version ≤ v) := by
      intro e he hc
      obtain ⟨q, hq, hqe⟩ := List.mem_map.mp he
      rw [← hqe] at hc
      exact hfv hc.2
    rw [dbGet_foldl_skip _ _ hskip]

theorem lastFlushed_foldl_override {k : String} :
    ∀ (l : List (Nat × List (String × Nat))) (a : Option Nat),
      l.foldl (lastFlushedStep k) a =
        match l.foldl (lastFlushedStep k) none with
        | some x => some x
        | none => a := by
  intro l
  induction l with
  | nil => intro a; rfl
  | cons f rest ih =>
    intro a
    rw [List.foldl_cons, List.foldl_cons, ih (lastFlushedStep k a f),
      ih (lastFlushedStep k none f)]
    cases hrest : rest.foldl (lastFlushedStep k) none with
    | some x => rfl
    | none =>
      unfold lastFlushedStep
      cases getA k f.2 <;> rfl

theorem lastFlushed_cons (f : Nat × List (String × Nat))
    (rest : List (Nat × List (String × Nat))) (k : String) (v : Nat) :
    lastFlushed (f :: rest) k v =
      match lastFlushed rest k v with
      | some x => some x
      | none =>
        if f.1 ≤ v then
          match getA k f.2 with
          | some x => some x
          | none => none
        else none := by
  unfold lastFlushed
  by_cases hf : f.1 ≤ v
  · rw [List.filter_cons_of_pos (by simpa using hf), List.foldl_cons,
      lastFlushed_foldl_override _ (lastFlushedStep k none f), if_pos hf]
    cases List.foldl (lastFlushedStep k) none (rest.filter fun f => decide (f.1 ≤ v)) with
    | some x => rfl
    | none =>
      unfold lastFlushedStep
      cases getA k f.2 <;> rfl
  · rw [List.filter_cons_of_neg (by simpa using hf), if_neg hf]
    cases List.foldl (lastFlushedStep k) none (rest.filter fun f => decide (f.1 ≤ v)) with
    | some x => rfl
    | none => rfl

theorem dbGet_flushes_aux {k : String} {v : Nat} :
    ∀ (fs : List (Nat × List (String × Nat))) (db : List TreeEntry),
      List.Pairwise (fun f g => f.1 < g.1) fs →
      (∀ f ∈ fs, (f.2.map Prod.fst).Nodup) →
      (∀ e ∈ db, ∀ f ∈ fs, e.version < f.1) →
      dbGetValue (fs.foldl (fun d f => dbFlush d f.1 f.2) db) k v =
        match lastFlushed fs k v with
        | some x => some x
        | none => dbGetValue db k v := by
  intro fs
  induction fs with
  | nil => intro db _ _ _; rfl
  | cons f rest ih =>
    intro db hpw hnd hlt
    obtain ⟨hhead, htail⟩ := List.pairwise_cons.mp hpw
    rw [List.foldl_cons]
    rw [ih (dbFlush db f.1 f.2) htail
      (fun g hg => hnd g (List.mem_cons_of_mem _ hg))
      (by
        intro e he g hg
        rcases List.mem_append.mp he with h1 | h1
        · exact hlt e h1 g (List.mem_cons_of_mem _ hg)
        · obtain ⟨q, _, hqe⟩ := List.mem_map.mp h1
          rw [← hqe]
          exact hhead g hg)]
    rw [lastFlushed_cons,
      dbGetValue_dbFlush db f.1 f.2 (hnd f (List.mem_cons_self _ _))
        (fun e he => hlt e he f (List.mem_cons_self _ _))]
    cases hrest : lastFlushed rest k v with
    | some x => rfl
    | none =>
      by_cases hf : f.1 ≤ v
      · rw [if_pos hf, if_pos hf]
        cases getA k f.2 <;> rfl
      · rw [if_neg hf, if_neg hf]

/-- C3: against the spec-modelled versioned tree, replaying any sequence of
staking-buffer flushes at strictly increasing versions and reading key `k`
at version `v` returns exactly the last value flushed for `k` at a version
at most `v`, and nothing when no such flush exists. -/
theorem C3_staking_get_returns_last_flush (fs : List (Nat × List (String × Nat)))
    (k : String) (v : Nat)
    (hpw : List.Pairwise (fun f g => f.1 < g.1) fs)
    (hnd : ∀ f ∈ fs, (f.2.map Prod.fst).Nodup) :
    dbGetValue (dbOfFlushes fs) k v = lastFlushed fs k v := by
  unfold dbOfFlushes
  rw [dbGet_flushes_aux fs [] hpw hnd (by intro e he; cases he)]
  cases lastFlushed fs k v <;> rfl

/-- Witness for C3 at the concrete flush history `exFlushes`, read at
version 4 (between the two writes of key `k`). -/
theorem C3_staking_get_returns_last_flush_witness :
    (List.Pairwise (fun f g => f.1 < g.1) exFlushes ∧
      ∀ f ∈ exFlushes, (f.2.map Prod.fst).Nodup) ∧
    dbGetValue (dbOfFlushes exFlushes) "k" 4 = lastFlushed exFlushes "k" 4 :=
  ⟨⟨by decide, by decide⟩,
    C3_staking_get_returns_last_flush exFlushes "k" 4 (by decide) (by decide)⟩

/-! ## C9: stale-index encoding -/

theorem toBE_length : ∀ (n v : Nat), (toBE n v).length = n := by
  intro n
  induction n with
  | zero => intro v; rfl
  | succ n ih => intro v; simp [toBE, ih]

theorem fromBE_append_singleton (l : List Nat) (b : Nat) :
    fromBE (l ++ [b]) = fromBE l * 256 + b := by
  unfold fromBE
  rw [List.foldl_append]
  rfl

theorem fromBE_toBE : ∀ (n v : Nat), fromBE (toBE n v) = v % 256 ^ n := by
  intro n
  induction n with
  | zero => intro v; simp [toBE, fromBE, Nat.mod_one]
  | succ n ih =>
    intro v
    show fromBE (toBE n (v / 256) ++ [v % 256]) = v % 256 ^ (n + 1)
    rw [fromBE_append_singleton, ih, pow_succ' 256 n, Nat.mod_mul]
    ring

theorem packNibbles_length : ∀ l : List Nat, (packNibbles l).length = (l.length + 1) / 2
  | [] => by simp [packNibbles]
  | [_] => by simp [packNibbles]
  | _ :: _ :: rest => by
    have ih := packNibbles_length rest
    simp only [packNibbles, List.length_cons, ih]
    omega

theorem unpack_pack : ∀ l : List Nat, (∀ x ∈ l, x < 16) →
    unpackNibbles l.length (packNibbles l) = l
  | [], _ => rfl
  | [a], h => by
    have ha : a < 16 := h a (by simp)
    show unpackNibbles 1 [a * 16] = [a]
    simp [unpackNibbles]
  | a :: b :: rest, h => by
    have ha : a < 16 := h a (by simp)
    have hb : b < 16 := h b (by simp)
    have ih := unpack_pack rest (fun x hx => h x (by simp [hx]))
    show unpackNibbles (rest.length + 1 + 1) ((a * 16 + b) :: packNibbles rest) =
      a :: b :: rest
    simp only [unpackNibbles, ih, List.cons.injEq]
    refine ⟨by omega, by omega, trivial⟩

theorem NodeKeyM.decode_encode (nk : NodeKeyM) (h : nk.wf) :
    NodeKeyM.decode nk.encode = some nk := by
  obtain ⟨hnib, _, hver⟩ := h
  unfold NodeKeyM.encode NodeKeyM.decode
  rw [List.drop_left' (toBE_length 8 _), List.take_left' (toBE_length 8 _)]
  simp only [packNibbles_length, fromBE_toBE, unpack_pack _ hnib, if_pos rfl]
  have hmod : nk.version % 256 ^ 8 = nk.version :=
    Nat.mod_eq_of_lt (lt_of_lt_of_le hver (by norm_num))
  rw [hmod]
  simp

theorem lexLtB_append_of_lt : ∀ (a b xs ys : List Nat), a.length = b.length →
    lexLtB a b = true → lexLtB (a ++ xs) (b ++ ys) = true
  | [], [], _, _, _, h => by simp [lexLtB] at h
  | [], _ :: _, _, _, hlen, _ => by simp at hlen
  | _ :: _, [], _, _, hlen, _ => by simp at hlen
  | a :: as, b :: bs, xs, ys, hlen, h => by
    simp only [lexLtB, Bool.or_eq_true, decide_eq_true_eq, Bool.and_eq_true,
      beq_iff_eq] at h
    show lexLtB (a :: (as ++ xs)) (b :: (bs ++ ys)) = true
    simp only [lexLtB, Bool.or_eq_true, decide_eq_true_eq, Bool.and_eq_true,
      beq_iff_eq]
    rcases h with h | ⟨h1, h2⟩
    · exact Or.inl h
    · exact Or.inr ⟨h1, lexLtB_append_of_lt as bs xs ys (by simpa using hlen) h2⟩

theorem lexLtB_append_same : ∀ (p xs ys : List Nat),
    lexLtB (p ++ xs) (p ++ ys) = lexLtB xs ys
  | [], _, _ => rfl
  | a :: p, xs, ys => by
    show lexLtB (a :: (p ++ xs)) (a :: (p ++ ys)) = lexLtB xs ys
    simp [lexLtB, lexLtB_append_same p xs ys]

theorem toBE_lt_lex : ∀ (n v1 v2 : Nat), v1 < v2 → v2 < 256 ^ n →
    lexLtB (toBE n v1) (toBE n v2) = true := by
  intro n
  induction n with
  | zero =>
    intro v1 v2 h1 h2
    simp at h2
    omega
  | succ n ih =>
    intro v1 v2 h1 h2
    show lexLtB (toBE n (v1 / 256) ++ [v1 % 256]) (toBE n (v2 / 256) ++ [v2 % 256]) = true
    by_cases hd : v1 / 256 < v2 / 256
    · have hv2 : v2 / 256 < 256 ^ n := by
        rw [Nat.div_lt_iff_lt_mul (by norm_num : (0 : Nat) < 256)]
        calc v2 < 256 ^ (n + 1) := h2
        _ = 256 ^ n * 256 := by ring
      exact lexLtB_append_of_lt _ _ _ _ (by rw [toBE_length, toBE_length])
        (ih _ _ hd hv2)
    · have hd' : v1 / 256 = v2 / 256 := by
        have := Nat.div_le_div_right (c := 256) (le_of_lt h1)
        omega
      have hmod : v1 % 256 < v2 % 256 := by omega
      rw [hd', lexLtB_append_same]
      simp [lexLtB, hmod]

/-- C9: a stale-index key is the 8-byte big-endian `stale_since_version`
followed by the node-key encoding, the byte order of two keys with
different versions agrees with the numeric version order, and decoding
inverts encoding. -/
theorem C9_stale_index_encoding (x y : StaleNodeIndex) (hx : x.wf) (hy : y.wf) :
    decode_stale_node_index (encode_stale_node_index x) = some x ∧
    (x.stale_since_version < y.stale_since_version →
      lexLtB (encode_stale_node_index x) (encode_stale_node_index y) = true) ∧
    encode_stale_node_index x = toBE 8 x.stale_since_version ++ x.node_key.encode := by
  obtain ⟨hnkx, hvx⟩ := hx
  obtain ⟨_, hvy⟩ := hy
  refine ⟨?_, ?_, rfl⟩
  · unfold decode_stale_node_index encode_stale_node_index
    rw [List.drop_left' (toBE_length 8 _), List.take_left' (toBE_length 8 _),
      NodeKeyM.decode_encode _ hnkx, fromBE_toBE,
      Nat.mod_eq_of_lt (lt_of_lt_of_le hvx (by norm_num))]
  · intro hlt
    unfold encode_stale_node_index
    exact lexLtB_append_of_lt _ _ _ _ (by rw [toBE_length, toBE_length])
      (toBE_lt_lex 8 _ _ hlt (lt_of_lt_of_le hvy (by norm_num)))

/-- Witness for C9 at the concrete entries `exIdxA` (version 3, a
three-nibble key) and `exIdxB` (version 7, the root key). -/
theorem C9_stale_index_encoding_witness :
    (exIdxA.wf ∧ exIdxB.wf) ∧
    (decode_stale_node_index (encode_stale_node_index exIdxA) = some exIdxA ∧
      (exIdxA.stale_since_version < exIdxB.stale_since_version →
        lexLtB (encode_stale_node_index exIdxA) (encode_stale_node_index exIdxB) = true) ∧
      encode_stale_node_index exIdxA =
        toBE 8 exIdxA.stale_since_version ++ exIdxA.node_key.encode) :=
  ⟨⟨by decide, by decide⟩, C9_stale_index_encoding exIdxA exIdxB (by decide) (by decide)⟩

/-! ## C6: jail characterization -/

/-- C6 amended: processing one `(staking_address, slash_rate, reason)`
punishment tuple gives a previously unknown address a fresh row with
`jail_time = block_time`, the given rate and reason and no slash amount;
an existing row keeps the higher of the old and new rate (refreshing the
reason) only while its `slash_amount` is unset, and is left entirely
unchanged otherwise — in particular `jail_time` and a computed
`slash_amount` are never modified, and no other address's row changes. -/
theorem C6_jail_single_characterization (st : ValidatorState) (bt : Nat) (a : String)
    (r : Nat) (reason : String) (hwf : st.punishment.wfB = true) :
    ∃ oid, ∀ b,
      (st.jail bt [(a, r, reason)]).punishment.get b =
        if b = a then
          some (oid,
            match st.punishment.get a with
            | none => ⟨a, r, bt, reason, none⟩
            | some (_, p) =>
              if p.slash_amount = none ∧ p.slash_rate < r then
                { p with slash_rate := r, slash_reason := reason }
              else p)
        else st.punishment.get b := by
  have hjail : st.jail bt [(a, r, reason)] = st.jailOne bt (a, r, reason) := rfl
  rw [hjail]
  cases hidx : getA a st.punishment.idx_staking_address with
  | none =>
    have hgeta : st.punishment.get a = none := by
      simp [PunishmentSet.get, hidx]
    have hfresh : getA (slabFresh (st.punishment.heap.map Prod.fst)) st.punishment.heap = none :=
      getA_eq_none_of_not_memKeys (slabFresh_not_mem _)
    have hstep : (st.jailOne bt (a, r, reason)).punishment =
        ⟨st.punishment.heap ++
            [(slabFresh (st.punishment.heap.map Prod.fst), ⟨a, r, bt, reason, none⟩)],
          setA a (slabFresh (st.punishment.heap.map Prod.fst))
            st.punishment.idx_staking_address⟩ := by
      simp [ValidatorState.jailOne, PunishmentSet.insert, hidx]
    refine ⟨slabFresh (st.punishment.heap.map Prod.fst), fun b => ?_⟩
    rw [hstep, hgeta]
    by_cases hb : b = a
    · subst hb
      rw [if_pos rfl]
      unfold PunishmentSet.get
      rw [getA_setA_self]
      simp only [Option.some_bind]
      rw [getA_append, hfresh]
      simp [getA]
    · rw [if_neg hb]
      unfold PunishmentSet.get
      rw [getA_setA_ne _ _ (fun hh => hb hh.symm)]
      cases hidxb : getA b st.punishment.idx_staking_address with
      | none => simp
      | some oid2 =>
        obtain ⟨p2, hheap2, _⟩ := PunishmentSet.wf_resolve hwf hidxb
        simp only [Option.some_bind]
        rw [getA_append, hheap2]
  | some oid₁ =>
    obtain ⟨p, hheap, hsa⟩ := PunishmentSet.wf_resolve hwf hidx
    have hget : st.punishment.get a = some (oid₁, p) := by
      simp [PunishmentSet.get, hidx, hheap]
    rw [hget]
    by_cases hcond : p.slash_amount = none ∧ p.slash_rate < r
    · have hstep : (st.jailOne bt (a, r, reason)).punishment =
          ⟨setA oid₁ { p with slash_rate := r, slash_reason := reason } st.punishment.heap,
            st.punishment.idx_staking_address⟩ := by
        simp [ValidatorState.jailOne, PunishmentSet.insert, hidx, hget, hcond]
      refine ⟨oid₁, fun b => ?_⟩
      rw [hstep]
      by_cases hb : b = a
      · subst hb
        rw [if_pos rfl]
        unfold PunishmentSet.get
        rw [hidx]
        simp only [Option.some_bind]
        rw [getA_setA_self]
        simp [hcond]
      · rw [if_neg hb]
        unfold PunishmentSet.get
        cases hidxb : getA b st.punishment.idx_staking_address with
        | none => simp
        | some oid2 =>
          obtain ⟨p2, hheap2, hsa2⟩ := PunishmentSet.wf_resolve hwf hidxb
          have hne : oid₁ ≠ oid2 := by
            intro hh
            subst hh
            rw [hheap] at hheap2
            cases hheap2
            exact hb (hsa2 ▸ hsa.symm ▸ rfl)
          simp only [Option.some_bind]
          rw [getA_setA_ne _ _ hne, hheap2]
    · have hstep : st.jailOne bt (a, r, reason) = st := by
        simp [ValidatorState.jailOne, PunishmentSet.insert, hidx, hget, hcond]
      refine ⟨oid₁, fun b => ?_⟩
      rw [hstep]
      by_cases hb : b = a
      · subst hb
        rw [if_pos rfl, hget]
        simp [hcond]
      · rw [if_neg hb]

/-- Witness for C6 at a concrete state: the already-slashed row of
`exSlashed` hit again with rate 9. -/
theorem C6_jail_single_characterization_witness :
    exSlashed.punishment.wfB = true ∧
    (∃ oid, ∀ b,
      (exSlashed.jail 20 [("s", 9, "again")]).punishment.get b =
        if b = "s" then
          some (oid,
            match exSlashed.punishment.get "s" with
            | none => ⟨"s", 9, 20, "again", none⟩
            | some (_, p) =>
              if p.slash_amount = none ∧ p.slash_rate < 9 then
                { p with slash_rate := 9, slash_reason := "again" }
              else p)
        else exSlashed.punishment.get b) :=
  ⟨by decide, C6_jail_single_characterization exSlashed 20 "s" 9 "again" (by decide)⟩

/-! ## C4: applying the emitted diff -/

theorem getA_applyOne (acc : List (String × Nat)) (u : String × Nat) (a : String) :
    getA a (applyOne acc u) =
      if a = u.1 then (if u.2 = 0 then none else some u.2) else getA a acc := by
  obtain ⟨b, q⟩ := u
  unfold applyOne
  by_cases hq : q = 0
  · simp only [hq, if_pos rfl]
    by_cases hb : a = b
    · subst hb
      simp [getA_eraseA_self]
    · simp [getA_eraseA_ne _ hb, hb]
  · simp only [if_neg hq]
    rw [getA_append]
    by_cases hb : a = b
    · subst hb
      rw [getA_eraseA_self]
      simp [getA, hq]
    · rw [getA_eraseA_ne _ hb]
      have hba : ¬ b = a := fun hh => hb hh.symm
      cases getA a acc <;> simp [getA, hq, hba, hb]

theorem getA_applyUpdates_not_mem {a : String} :
    ∀ (us m : List (String × Nat)), (∀ u ∈ us, u.1 ≠ a) →
      getA a (applyUpdates m us) = getA a m := by
  intro us
  induction us with
  | nil => intro m _; rfl
  | cons u rest ih =>
    intro m h
    have h1 : applyUpdates m (u :: rest) = applyUpdates (applyOne m u) rest := rfl
    rw [h1, ih _ (fun x hx => h x (List.mem_cons_of_mem _ hx)), getA_applyOne,
      if_neg (fun hh => (h u (List.mem_cons_self _ _)) hh.symm)]

theorem getA_applyUpdates_keep {a : String} {p : Nat} (hp : p ≠ 0) :
    ∀ (us m : List (String × Nat)), (∀ u ∈ us, u.1 = a → u.2 = p) →
      getA a m = some p → getA a (applyUpdates m us) = some p := by
  intro us
  induction us with
  | nil => intro m _ hm; exact hm
  | cons u rest ih =>
    intro m hall hm
    have h1 : applyUpdates m (u :: rest) = applyUpdates (applyOne m u) rest := rfl
    rw [h1]
    apply ih _ (fun x hx => hall x (List.mem_cons_of_mem _ hx))
    rw [getA_applyOne]
    by_cases hu : a = u.1
    · rw [if_pos hu, hall u (List.mem_cons_self _ _) hu.symm, if_neg hp]
    · rw [if_neg hu]
      exact hm

theorem getA_applyUpdates_set {a : String} {p : Nat} (hp : p ≠ 0) :
    ∀ (us m : List (String × Nat)), (∀ u ∈ us, u.1 = a → u.2 = p) →
      (∃ u ∈ us, u.1 = a) → getA a (applyUpdates m us) = some p := by
  intro us
  induction us with
  | nil => intro m _ hex; simp at hex
  | cons u rest ih =>
    intro m hall hex
    have h1 : applyUpdates m (u :: rest) = applyUpdates (applyOne m u) rest := rfl
    rw [h1]
    by_cases hu : u.1 = a
    · apply getA_applyUpdates_keep hp rest _
        (fun x hx => hall x (List.mem_cons_of_mem _ hx))
      rw [getA_applyOne, if_pos hu.symm, hall u (List.mem_cons_self _ _) hu, if_neg hp]
    · obtain ⟨w, hw, hwa⟩ := hex
      rcases List.mem_cons.mp hw with h' | h'
      · subst h'
        exact absurd hwa hu
      · exact ih _ (fun x hx => hall x (List.mem_cons_of_mem _ hx)) ⟨w, h', hwa⟩

theorem getA_applyUpdates_keep_none {a : String} :
    ∀ (us m : List (String × Nat)), (∀ u ∈ us, u.1 = a → u.2 = 0) →
      getA a m = none → getA a (applyUpdates m us) = none := by
  intro us
  induction us with
  | nil => intro m _ hm; exact hm
  | cons u rest ih =>
    intro m hall hm
    have h1 : applyUpdates m (u :: rest) = applyUpdates (applyOne m u) rest := rfl
    rw [h1]
    apply ih _ (fun x hx => hall x (List.mem_cons_of_mem _ hx))
    rw [getA_applyOne]
    by_cases hu : a = u.1
    · rw [if_pos hu, hall u (List.mem_cons_self _ _) hu.symm]
      simp
    · rw [if_neg hu]
      exact hm

theorem getA_applyUpdates_remove {a : String} :
    ∀ (us m : List (String × Nat)), (∀ u ∈ us, u.1 = a → u.2 = 0) →
      (∃ u ∈ us, u.1 = a) → getA a (applyUpdates m us) = none := by
  intro us
  induction us with
  | nil => intro m _ hex; simp at hex
  | cons u rest ih =>
    intro m hall hex
    have h1 : applyUpdates m (u :: rest) = applyUpdates (applyOne m u) rest := rfl
    rw [h1]
    by_cases hu : u.1 = a
    · apply getA_applyUpdates_keep_none rest _
        (fun x hx => hall x (List.mem_cons_of_mem _ hx))
      rw [getA_applyOne, if_pos hu.symm, hall u (List.mem_cons_self _ _) hu]
      simp
    · obtain ⟨w, hw, hwa⟩ := hex
      rcases List.mem_cons.mp hw with h' | h'
      · subst h'
        exact absurd hwa hu
      · exact ih _ (fun x hx => hall x (List.mem_cons_of_mem _ hx)) ⟨w, h', hwa⟩

theorem nodup_values_eq {l : List (String × Nat)} (hnd : (l.map Prod.fst).Nodup)
    {a : String} {p q : Nat} (h1 : (a, p) ∈ l) (h2 : (a, q) ∈ l) : p = q := by
  have e1 := getA_of_mem_nodup hnd h1
  have e2 := getA_of_mem_nodup hnd h2
  rw [e1] at e2
  exact (Option.some.injEq _ _ ▸ e2).symm ▸ rfl

/-- C4 amended: as long as every power listed in `new` is nonzero, applying
the emitted update list of `diff_validators old new` to `old` — each listed
address set to its listed power, power 0 meaning removal — reproduces `new`
exactly (pointwise as maps). -/
theorem C4_diff_validators_apply (old new : List (String × Nat))
    (hndnew : (new.map Prod.fst).Nodup) (_hndold : (old.map Prod.fst).Nodup)
    (hnz : ∀ p ∈ new, p.2 ≠ 0) (a : String) :
    getA a (applyUpdates old (diff_validators old new)) = getA a new := by
  cases hnew : getA a new with
  | some p =>
    have hmem : (a, p) ∈ new := getA_some_mem hnew
    have hp : p ≠ 0 := hnz _ hmem
    have hall : ∀ u ∈ diff_validators old new, u.1 = a → u.2 = p := by
      intro u hu hua
      rcases List.mem_append.mp hu with h1 | h1
      · have hun := (List.mem_filter.mp h1).1
        have : (a, u.2) ∈ new := by
          rw [← hua]
          exact hun
        exact nodup_values_eq hndnew this hmem
      · obtain ⟨q, hq, hqe⟩ := List.mem_map.mp h1
        have hnone := of_decide_eq_true (List.mem_filter.mp hq).2
        rw [← hqe] at hua
        simp only at hua
        rw [hua] at hnone
        rw [hnone] at hnew
        cases hnew
    by_cases hold : getA a old = some p
    · have hnone : ∀ u ∈ diff_validators old new, u.1 ≠ a := by
        intro u hu hua
        have hup := hall u hu hua
        rcases List.mem_append.mp hu with h1 | h1
        · have hcond := of_decide_eq_true (List.mem_filter.mp h1).2
          rw [hua, hup] at hcond
          exact hcond hold
        · obtain ⟨q, hq, hqe⟩ := List.mem_map.mp h1
          rw [← hqe] at hup
          simp only at hup
          exact hp (hup ▸ rfl)
      rw [getA_applyUpdates_not_mem _ _ hnone, hold]
    · have hex : ∃ u ∈ diff_validators old new, u.1 = a := by
        refine ⟨(a, p), List.mem_append_left _ (List.mem_filter.mpr ⟨hmem, ?_⟩), rfl⟩
        exact decide_eq_true hold
      rw [getA_applyUpdates_set hp _ _ hall hex]
  | none =>
    have hmemnone : ∀ q : Nat, (a, q) ∉ new := by
      intro q hq
      have := getA_isSome_of_mem hq
      rw [hnew] at this
      cases this
    have hall0 : ∀ u ∈ diff_validators old new, u.1 = a → u.2 = 0 := by
      intro u hu hua
      rcases List.mem_append.mp hu with h1 | h1
      · have hun := (List.mem_filter.mp h1).1
        have : (a, u.2) ∈ new := by
          rw [← hua]
          exact hun
        exact absurd this (hmemnone _)
      · obtain ⟨q, hq, hqe⟩ := List.mem_map.mp h1
        rw [← hqe]
    cases holda : getA a old with
    | some q =>
      have hqmem := getA_some_mem holda
      have hex : ∃ u ∈ diff_validators old new, u.1 = a := by
        refine ⟨(a, 0), List.mem_append_right _ ?_, rfl⟩
        exact List.mem_map.mpr ⟨(a, q), List.mem_filter.mpr ⟨hqmem, decide_eq_true hnew⟩, rfl⟩
      rw [getA_applyUpdates_remove _ _ hall0 hex]
    | none =>
      have hnone : ∀ u ∈ diff_validators old new, u.1 ≠ a := by
        intro u hu hua
        rcases List.mem_append.mp hu with h1 | h1
        · have hun := (List.mem_filter.mp h1).1
          have : (a, u.2) ∈ new := by
            rw [← hua]
            exact hun
          exact absurd this (hmemnone _)
        · obtain ⟨q, hq, hqe⟩ := List.mem_map.mp h1
          have : (a, q.2) ∈ old := by
            have : q.1 = a := by
              rw [← hqe] at hua
              simpa using hua
            rw [← this]
            exact (List.mem_filter.mp hq).1
          have := getA_isSome_of_mem this
          rw [holda] at this
          cases this
      rw [getA_applyUpdates_not_mem _ _ hnone, holda]

/-- Witness for C4 at concrete maps `old = {a ↦ 1, b ↦ 2}` and
`new = {a ↦ 3, c ↦ 1}`, read back at address `b`. -/
theorem C4_diff_validators_apply_witness :
    (([("a", 3), ("c", 1)].map Prod.fst).Nodup ∧
      ([("a", 1), ("b", 2)].map Prod.fst).Nodup ∧
      ∀ p ∈ [("a", 3), ("c", 1)], p.2 ≠ 0) ∧
    getA "b" (applyUpdates [("a", 1), ("b", 2)]
        (diff_validators [("a", 1), ("b", 2)] [("a", 3), ("c", 1)])) =
      getA "b" [("a", 3), ("c", 1)] :=
  ⟨⟨by decide, by decide, by decide⟩,
    C4_diff_validators_apply [("a", 1), ("b", 2)] [("a", 3), ("c", 1)]
      (by decide) (by decide) (by decide) "b"⟩

/-! ## C10: reward distribution -/

theorem sumCounts_bumpA (a : String) (m : List (String × Nat)) :
    ValidatorState.sumCounts (ValidatorState.bumpA a m) =
      ValidatorState.sumCounts m + 1 := by
  induction m with
  | nil => rfl
  | cons p rest ih =>
    obtain ⟨k, c⟩ := p
    by_cases h : k = a <;>
      simp [ValidatorState.bumpA, ValidatorState.sumCounts, h] at * <;> omega

/-- C10: when the block proposer resolves in the validator set, the reward
accrual first records one block for it, so at a reward-period boundary the
divisor of `total_reward / blocks` — the summed block counts at the
division site — is at least 1, and the accrual map is cleared by the
distribution. -/
theorem C10_distribute_reward_divisor_positive (st : ValidatorState) (bt : Nat)
    (proposer : String)
    (hp : (st.validator.get_by_validator_address proposer).isSome = true)
    (hb : REWARD_PERIOD ≤ bt - st.last_reward_distributio_time) :
    1 ≤ ValidatorState.sumCounts (st.recordProposer proposer).reward_stat ∧
    (st.distribute_reward bt proposer).reward_stat = [] := by
  cases hv : st.validator.get_by_validator_address proposer with
  | none => rw [hv] at hp; simp at hp
  | some v =>
    have h1 : (st.recordProposer proposer).reward_stat =
        ValidatorState.bumpA v.staking_address st.reward_stat := by
      simp [ValidatorState.recordProposer, hv]
    have hlast : (st.recordProposer proposer).last_reward_distributio_time =
        st.last_reward_distributio_time := by
      simp [ValidatorState.recordProposer, hv]
    constructor
    · rw [h1, sumCounts_bumpA]
      omega
    · simp [ValidatorState.distribute_reward, hlast, hb]

/-- Witness for C10 at a concrete state: one joined validator proposing at
block time 10 with the last distribution at time 0. -/
theorem C10_distribute_reward_divisor_positive_witness :
    1 ≤ ValidatorState.sumCounts (exJoined.recordProposer "v").reward_stat ∧
    (exJoined.distribute_reward 10 "v").reward_stat = [] :=
  C10_distribute_reward_divisor_positive exJoined 10 "v" (by decide) (by decide)

end ChainSpec
